import Mathlib

/-!
Verification of the resumable chunked ingestion pipeline in
`src/mmore/run_process_eth_digital.py`.

The Python module is shallowly embedded below:
* Python strings are Lean `String`s; the Python string operations used by the
  source (`str.endswith`, `str.lower`, `os.path.join`, `sorted`, the regex
  `part_(\d{5})\.jsonl\.gz` applied with `re.match`) are modelled over the
  character list `String.data`.  (`\d` is modelled as an ASCII digit; Python's
  Unicode-digit corner is outside the model, as are Python's cross-type
  equalities such as `True == 1`.)
* JSON values (the results of `json.loads` and the arguments of `json.dumps`)
  are the inductive `Json`.
* An archive line is `Option Json`: `none` stands for a line on which
  `json.loads` raises `JSONDecodeError`; writing a record produces a parsed
  line `some record` (reading back what `json.dumps` wrote re-parses to the
  same value).
* An output directory is an association list from file name to the list of
  lines of that file; `gzip.open(..., "at")` (append mode) creates the file
  or extends its line list.
* Python exceptions that the source does not catch (the `AttributeError`
  raised by `obj.get(...)` on a non-dict) are modelled with `Except Unit`.
* The external collaborators (`yaml` config loading, `os.makedirs`,
  `PDFProcessor` construction) are outside the model; `process` takes the
  already-extracted `input_dir` listing and output-directory state, and the
  batch transformation is an explicit function parameter.
-/

instance {ε α : Type} [DecidableEq ε] [DecidableEq α] : DecidableEq (Except ε α) := fun a b =>
  match a, b with
  | .error x, .error y =>
    if h : x = y then .isTrue (by subst h; rfl)
    else .isFalse (by intro hc; cases hc; exact h rfl)
  | .ok x, .ok y =>
    if h : x = y then .isTrue (by subst h; rfl)
    else .isFalse (by intro hc; cases hc; exact h rfl)
  | .error _, .ok _ => .isFalse (by intro hc; cases hc)
  | .ok _, .error _ => .isFalse (by intro hc; cases hc)

/-! ### Python string primitives -/

/-- Comparison of two characters by code point, as Python compares the
characters of strings. -/
def pyCharLt (a b : Char) : Bool := a.toNat < b.toNat

/-- Lexicographic strict order on character lists: Python's `<` on strings. -/
def strLtb : List Char → List Char → Bool
  | [], [] => false
  | [], _ :: _ => true
  | _ :: _, [] => false
  | a :: as, b :: bs => if a = b then strLtb as bs else pyCharLt a b

/-- Python `a < b` for strings. -/
def pyStrLt (a b : String) : Bool := strLtb a.data b.data

/-- Python `a <= b` for strings (total order used by `sorted`). -/
def pyStrLe (a b : String) : Bool := !(pyStrLt b a)

/-- Python `s.endswith(suf)`. -/
def pyEndsWith (s suf : String) : Bool :=
  decide (suf.data.length ≤ s.data.length ∧
    s.data.drop (s.data.length - suf.data.length) = suf.data)

/-- Python `s.lower()` (ASCII case folding suffices for the `.pdf` test). -/
def pyLower (s : String) : String := String.mk (s.data.map Char.toLower)

/-- Python `os.path.join(a, b)` for POSIX paths (two arguments). -/
def osPathJoin (a b : String) : String :=
  if b.data.take 1 = ['/'] then b
  else if a.data.getLast? = some '/' ∨ a = "" then a ++ b
  else a ++ "/" ++ b

/-- The order relation `sorted` sorts by. -/
def pyLeRel (a b : String) : Prop := pyStrLe a b = true

instance : DecidableRel pyLeRel := fun a b => by
  unfold pyLeRel; infer_instance

/-- Python `sorted` on a list of strings. -/
def sortStrings (l : List String) : List String := l.insertionSort pyLeRel

/-! ### JSON values -/

mutual

/-- A parsed JSON value (`json.loads` result / `json.dumps` argument). -/
inductive Json where
  | null
  | bool (b : Bool)
  | num (n : Int)
  | str (s : String)
  | arr (elems : JsonList)
  | obj (fields : JsonFields)
deriving DecidableEq, Repr

/-- Elements of a JSON array. -/
inductive JsonList where
  | nil
  | cons (hd : Json) (tl : JsonList)
deriving DecidableEq, Repr

/-- Fields of a JSON object (keys produced by `json.loads` are distinct). -/
inductive JsonFields where
  | nil
  | cons (k : String) (v : Json) (tl : JsonFields)
deriving DecidableEq, Repr

end

/-- Python `d.get(key)` on a JSON object: `some` value or `none`. -/
def jsonGet : JsonFields → String → Option Json
  | .nil, _ => none
  | .cons k v tl, key => if k = key then some v else jsonGet tl key

/-- Python truthiness of a JSON value (`if file_path:`). -/
def pyTruthy : Json → Bool
  | .null => false
  | .bool b => b
  | .num n => decide (n ≠ 0)
  | .str s => decide (s ≠ "")
  | .arr .nil => false
  | .arr (.cons _ _) => true
  | .obj .nil => false
  | .obj (.cons _ _ _) => true

/-- Python `obj.get("metadata", {}).get("file_path")`.  `.get` exists only on
dicts, so a non-dict receiver raises `AttributeError` (modelled as
`.error ()`), which `collect_processed_pdfs` does not catch. -/
def pyGetMetadataFilePath : Json → Except Unit (Option Json)
  | .obj kvs =>
    match (jsonGet kvs "metadata").getD (.obj .nil) with
    | .obj mkvs => .ok (jsonGet mkvs "file_path")
    | _ => .error ()
  | _ => .error ()

/-- Python `set.add`: the set is a duplicate-free list, membership decided by
structural equality. -/
def setInsert (x : Json) (s : List Json) : List Json :=
  if x ∈ s then s else s ++ [x]

/-! ### The output directory -/

/-- One line of a `.jsonl.gz` archive: `none` if `json.loads` raises
`JSONDecodeError` on it, `some v` if it parses to `v`. -/
abbrev ArchiveLine := Option Json

/-- The state of the output directory: file name ↦ lines of the file. -/
abbrev Dir := List (String × List ArchiveLine)

/-! ### `collect_processed_pdfs` -/

/-- The body of the inner loop of `collect_processed_pdfs` for one line:
a `JSONDecodeError` is caught (`continue`); a `None` or falsy `file_path` is
not added; a truthy `file_path` is added to the set. -/
def processLine (acc : List Json) : ArchiveLine → Except Unit (List Json)
  | none => .ok acc
  | some j =>
    match pyGetMetadataFilePath j with
    | .error e => .error e
    | .ok none => .ok acc
    | .ok (some v) => .ok (if pyTruthy v then setInsert v acc else acc)

/-- The inner loop of `collect_processed_pdfs` over the lines of one file. -/
def processLines (acc : List Json) : List ArchiveLine → Except Unit (List Json)
  | [] => .ok acc
  | l :: ls =>
    match processLine acc l with
    | .error e => .error e
    | .ok acc2 => processLines acc2 ls

/-- The outer loop of `collect_processed_pdfs` over `os.listdir(output_dir)`:
only files whose name ends with `.jsonl.gz` are opened. -/
def collectGo (acc : List Json) : Dir → Except Unit (List Json)
  | [] => .ok acc
  | (fname, lines) :: rest =>
    if pyEndsWith fname ".jsonl.gz" then
      match processLines acc lines with
      | .error e => .error e
      | .ok acc2 => collectGo acc2 rest
    else collectGo acc rest

/-- `collect_processed_pdfs(output_dir)`: collect all processed file paths
from existing `.jsonl.gz` archives. -/
def collect_processed_pdfs (d : Dir) : Except Unit (List Json) := collectGo [] d

/-! ### `get_next_part_index` -/

/-- ASCII `\d`. -/
def isAsciiDigit (c : Char) : Bool :=
  decide ('0'.toNat ≤ c.toNat ∧ c.toNat ≤ '9'.toNat)

/-- `int()` of a digit string (leading zeros allowed). -/
def digitsVal (cs : List Char) : Nat :=
  cs.foldl (fun a c => a * 10 + (c.toNat - '0'.toNat)) 0

/-- Python `re.compile(r"part_(\d{5})\.jsonl\.gz").match(fname)`, returning
`int(match.group(1))`.  `re.match` anchors at the START of the string only:
characters after the matched `".jsonl.gz"` are ignored. -/
def regexMatchPart (fname : String) : Option Nat :=
  if fname.data.take 5 = "part_".data ∧ ((fname.data.drop 5).take 5).length = 5 ∧
      ((fname.data.drop 5).take 5).all isAsciiDigit ∧
      (fname.data.drop 10).take 9 = ".jsonl.gz".data
  then some (digitsVal ((fname.data.drop 5).take 5)) else none

/-- The `max_index` accumulation loop of `get_next_part_index`, starting from
accumulator `m` (the source starts from `-1`). -/
def nextIndexFold (d : Dir) (m : Int) : Int :=
  d.foldl (fun acc f =>
    match regexMatchPart f.1 with
    | some idx => max acc (idx : Int)
    | none => acc) m

/-- `get_next_part_index(output_dir)`: the next part index based on existing
`part_XXXXX.jsonl.gz` files. -/
def get_next_part_index (d : Dir) : Nat := (nextIndexFold d (-1) + 1).toNat

/-! ### Spec-side definitions (for refinement comparisons only; these follow
the spec's words, not the source) -/

/-- Following the spec's words: a file name that IS (exactly) of the form
`part_<5 digits>.jsonl.gz`, and its index.  Unlike `regexMatchPart`, nothing
may follow the extension. -/
def specFullMatchPart (fname : String) : Option Nat :=
  if fname.data.take 5 = "part_".data ∧ ((fname.data.drop 5).take 5).length = 5 ∧
      ((fname.data.drop 5).take 5).all isAsciiDigit ∧
      fname.data.drop 10 = ".jsonl.gz".data
  then some (digitsVal ((fname.data.drop 5).take 5)) else none

/-- Following the spec's words: one greater than the maximum index among file
names exactly of the form `part_<5 digits>.jsonl.gz`, or `0` if none exist. -/
def specNextPartIndex (d : Dir) : Nat :=
  let idxs := d.filterMap (fun f => specFullMatchPart f.1)
  if idxs = [] then 0 else idxs.foldl max 0 + 1

/-- Following the spec's words: a POSIX-absolute path. -/
def isAbsolutePath (s : String) : Bool := s.data.take 1 = ['/']

/-- The indices the source's matcher extracts from a directory listing. -/
def partIndices (d : Dir) : List Nat := d.filterMap (fun f => regexMatchPart f.1)

/-! ### `chunk_list` -/

/-- `chunk_list(lst, chunk_size)`: the generator
`(lst[i:i + chunk_size] for i in range(0, len(lst), chunk_size))`, as the
list of its elements.  For `chunk_size > 0`, Python's
`range(0, n, chunk_size)` has `⌈n / chunk_size⌉` elements `0, chunk_size, …`
(`chunk_size = 0` makes `range` raise `ValueError`; no claim exercises it). -/
def chunkList (lst : List α) (chunk_size : Nat) : List (List α) :=
  (List.range' 0 ((lst.length + chunk_size - 1) / chunk_size) chunk_size).map
    (fun i => (lst.drop i).take chunk_size)

/-- `CHUNK_SIZE` from the source. -/
def CHUNK_SIZE : Nat := 1000

/-! ### `to_jsonl_gz` -/

/-- The write loop of `to_jsonl_gz`: each sample appends
`json.dumps(sample.to_dict()) + "\n"` to the (append-mode) file, whose
content so far is `content`.  `dumps` is the external serializer. -/
def writeSamples (dumps : Json → String) : List Json → String → String
  | [], content => content
  | s :: rest, content => writeSamples dumps rest (content ++ (dumps s ++ "\n"))

/-- `to_jsonl_gz(file_path, samples)` at the level of the target file's text:
`gzip.open(file_path, "at", encoding="utf-8")` positions writes after the
existing content, and the `with` block closes the file. -/
def to_jsonl_gz (dumps : Json → String) (existing : String) (samples : List Json) : String :=
  writeSamples dumps samples existing

/-! ### `process` -/

/-- `f"{n:05}"`: zero-pad the decimal form of `n` to at least five digits. -/
def pad5 (n : Nat) : String :=
  let s := toString n
  if s.data.length < 5 then String.mk (List.replicate (5 - s.data.length) '0') ++ s else s

/-- `f"part_{part_idx:05}.jsonl.gz"`. -/
def partFileName (idx : Nat) : String := "part_" ++ pad5 idx ++ ".jsonl.gz"

/-- The effect of `to_jsonl_gz` on the output directory, at the parsed-line
level: append mode extends an existing file's lines (or creates the file),
and every written record re-parses to itself. -/
def dirAppend : Dir → String → List Json → Dir
  | [], fname, recs => [(fname, recs.map some)]
  | (g, ls) :: rest, fname, recs =>
    if g = fname then (g, ls ++ recs.map some) :: rest
    else (g, ls) :: dirAppend rest fname recs

/-- The chunk loop of `process`: for the `i`-th chunk, run the batch
transformation and append the results to `part_{start_idx + i:05}.jsonl.gz`.
Returns the final directory and, per chunk, the part index and the records
handed to `to_jsonl_gz`, in chunk order. -/
def runChunks (batch : List String → List Json) (start : Nat) :
    List (List String) → Nat → Dir → Dir × List (Nat × List Json)
  | [], _, d => (d, [])
  | c :: cs, i, d =>
    let results := batch c
    let step := runChunks batch start cs (i + 1) (dirAppend d (partFileName (start + i)) results)
    (step.1, (start + i, results) :: step.2)

/-- The `all_pdfs` computation of `process`:
`sorted(os.path.join(input_dir, f) for f in os.listdir(input_dir)
if f.lower().endswith(".pdf"))`. -/
def discoveredPdfs (input_dir : String) (listing : List String) : List String :=
  sortStrings ((listing.filter (fun f => pyEndsWith (pyLower f) ".pdf")).map
    (fun f => osPathJoin input_dir f))

/-- The `pdf_file_paths` computation of `process`:
`[fp for fp in all_pdfs if fp not in processed_pdfs]`.  A Python string is
equal to a set element exactly when the element is the same string. -/
def pendingPdfs (processed : List Json) (paths : List String) : List String :=
  paths.filter (fun fp => decide (Json.str fp ∉ processed))

/-- Observable outcome of one `process` run: the final output directory, the
`(part index, records)` of each `to_jsonl_gz` call in order, and how many
times `get_next_part_index` was invoked. -/
structure RunResult where
  outDir : Dir
  written : List (Nat × List Json)
  sequencerCalls : Nat
deriving DecidableEq, Repr

/-- `process(config_file)` after the external config load: discover the
pending work, return early if there is none, otherwise sequence, dispatch
and write each chunk.  The batch transformation
(`processor.process_batch(chunk, ...)`) is the parameter `batch`. -/
def process (batch : List String → List Json) (input_dir : String)
    (listing : List String) (d : Dir) : Except Unit RunResult :=
  match collect_processed_pdfs d with
  | .error e => .error e
  | .ok processed =>
    let pdf_file_paths := pendingPdfs processed (discoveredPdfs input_dir listing)
    if pdf_file_paths.isEmpty then .ok ⟨d, [], 0⟩
    else
      let start := get_next_part_index d
      let step := runChunks batch start (chunkList pdf_file_paths CHUNK_SIZE) 0 d
      .ok ⟨step.1, step.2, 1⟩

/-- Modelled from the spec: `PDFProcessor.process_batch` belongs to this
repository but is not under `src/`.  Per the spec's Batch Dispatcher
contract, each item is transformed independently; an item whose
transformation fails is dropped from the chunk's output and the remaining
items are kept.  (The worker pool only parallelizes the per-item work; the
collected successes are modelled in input order.) -/
def process_batch (transform : String → Except Unit Json) (paths : List String) : List Json :=
  paths.filterMap (fun p => (transform p).toOption)

/-! ## Helper lemmas: the string order and `sortStrings` -/

theorem char_toNat_inj {a b : Char} (h : a.toNat = b.toNat) : a = b :=
  Char.eq_of_val_eq (UInt32.ext h)

theorem strLtb_irrefl : ∀ l : List Char, strLtb l l = false
  | [] => rfl
  | a :: as => by
    simp only [strLtb, if_pos rfl]
    exact strLtb_irrefl as

theorem strLtb_trans : ∀ a b c : List Char,
    strLtb a b = true → strLtb b c = true → strLtb a c = true
  | [], [], _, h1, _ => by simp [strLtb] at h1
  | [], _ :: _, [], _, h2 => by simp [strLtb] at h2
  | [], _ :: _, _ :: _, _, _ => rfl
  | _ :: _, [], _, h1, _ => by simp [strLtb] at h1
  | _ :: _, _ :: _, [], _, h2 => by simp [strLtb] at h2
  | x :: xs, y :: ys, z :: zs, h1, h2 => by
    simp only [strLtb] at h1 h2 ⊢
    by_cases hxy : x = y
    · subst hxy
      rw [if_pos rfl] at h1
      by_cases hxz : x = z
      · subst hxz
        rw [if_pos rfl] at h2 ⊢
        exact strLtb_trans _ _ _ h1 h2
      · rw [if_neg hxz] at h2 ⊢
        exact h2
    · rw [if_neg hxy] at h1
      by_cases hyz : y = z
      · subst hyz
        rw [if_neg hxy]
        exact h1
      · rw [if_neg hyz] at h2
        have hxy' : x.toNat < y.toNat := by simpa [pyCharLt] using h1
        have hyz' : y.toNat < z.toNat := by simpa [pyCharLt] using h2
        have hlt : x.toNat < z.toNat := Nat.lt_trans hxy' hyz'
        have hxz : x ≠ z := by
          intro h
          subst h
          exact Nat.lt_irrefl _ hlt
        rw [if_neg hxz]
        simpa [pyCharLt] using hlt

theorem strLtb_connex : ∀ a b : List Char, strLtb a b = false → strLtb b a = true ∨ a = b
  | [], [], _ => .inr rfl
  | [], _ :: _, h => by simp [strLtb] at h
  | _ :: _, [], _ => .inl rfl
  | x :: xs, y :: ys, h => by
    simp only [strLtb] at h ⊢
    by_cases hxy : x = y
    · subst hxy
      rw [if_pos rfl] at h ⊢
      rcases strLtb_connex xs ys h with h' | h'
      · exact .inl h'
      · exact .inr (by rw [h'])
    · rw [if_neg hxy] at h
      have hle : ¬ x.toNat < y.toNat := by simpa [pyCharLt] using h
      have hne : y.toNat ≠ x.toNat := fun hh => hxy (char_toNat_inj hh.symm)
      have hyx : y ≠ x := fun hh => hxy hh.symm
      rw [if_neg hyx]
      refine .inl ?_
      simp only [pyCharLt, decide_eq_true_eq]
      omega

instance : IsTrans String pyLeRel := by
  constructor
  intro a b c hab hbc
  simp only [pyLeRel, pyStrLe, pyStrLt, Bool.not_eq_true', Bool.not_eq_false'] at hab hbc ⊢
  cases hca : strLtb c.data a.data with
  | false => rfl
  | true =>
    exfalso
    rcases strLtb_connex _ _ hab with h' | h'
    · have := strLtb_trans _ _ _ hca h'
      rw [hbc] at this
      exact Bool.false_ne_true this
    · rw [h'] at hbc
      rw [hbc] at hca
      exact Bool.false_ne_true hca

instance : IsTotal String pyLeRel := by
  constructor
  intro a b
  simp only [pyLeRel, pyStrLe, Bool.not_eq_true']
  cases hba : pyStrLt b a with
  | false => exact .inl rfl
  | true =>
    refine .inr ?_
    simp only [pyStrLt] at hba ⊢
    cases hab : strLtb a.data b.data with
    | false => rfl
    | true =>
      exfalso
      have := strLtb_trans _ _ _ hab hba
      rw [strLtb_irrefl] at this
      exact Bool.false_ne_true this

theorem sortStrings_perm (l : List String) : (sortStrings l).Perm l :=
  List.perm_insertionSort _ l

theorem sortStrings_sorted (l : List String) : (sortStrings l).Sorted pyLeRel :=
  List.sorted_insertionSort _ l

theorem mem_sortStrings {x : String} {l : List String} : x ∈ sortStrings l ↔ x ∈ l :=
  (sortStrings_perm l).mem_iff

/-! ## Helper lemmas: `chunkList` -/

theorem chunkList_nil (cs : Nat) : chunkList ([] : List α) cs = [] := by
  unfold chunkList
  have h : (List.length ([] : List α) + cs - 1) / cs = 0 := by
    rcases Nat.eq_zero_or_pos cs with hc | hc
    · subst hc
      simp
    · apply Nat.div_eq_of_lt
      simp only [List.length_nil]
      omega
  rw [h]
  rfl

theorem chunkList_cons (lst : List α) (cs : Nat) (hcs : 0 < cs) (hne : lst ≠ []) :
    chunkList lst cs = lst.take cs :: chunkList (lst.drop cs) cs := by
  have hn : 0 < lst.length := List.length_pos.mpr hne
  unfold chunkList
  rw [List.length_drop]
  have hcount : (lst.length + cs - 1) / cs = (lst.length - cs + cs - 1) / cs + 1 := by
    rcases le_or_lt lst.length cs with h | h
    · have e1 : lst.length + cs - 1 = (lst.length - 1) + cs := by omega
      have e2 : lst.length - cs + cs - 1 = cs - 1 := by omega
      rw [e1, e2, Nat.add_div_right _ hcs, Nat.div_eq_of_lt (by omega),
        Nat.div_eq_of_lt (by omega)]
    · have e1 : lst.length + cs - 1 = (lst.length - 1) + cs := by omega
      have e2 : lst.length - cs + cs - 1 = lst.length - 1 := by omega
      rw [e1, e2, Nat.add_div_right _ hcs]
  rw [hcount, List.range'_succ]
  simp only [List.map_cons, List.drop_zero]
  congr 1
  have hshift : List.range' (0 + cs) ((lst.length - cs + cs - 1) / cs) cs
      = (List.range' 0 ((lst.length - cs + cs - 1) / cs) cs).map (fun x => cs + x) := by
    rw [List.map_add_range']
    norm_num
  rw [hshift, List.map_map]
  apply List.map_congr_left
  intro i _
  simp only [Function.comp]
  rw [List.drop_drop]

theorem chunkList_ne_nil (lst : List α) (cs : Nat) (hcs : 0 < cs) (hne : lst ≠ []) :
    chunkList lst cs ≠ [] := by
  rw [chunkList_cons lst cs hcs hne]
  simp

theorem chunkList_flatten (cs : Nat) (hcs : 0 < cs) (lst : List α) :
    (chunkList lst cs).flatten = lst := by
  by_cases hne : lst = []
  · subst hne
    rw [chunkList_nil]
    rfl
  · rw [chunkList_cons lst cs hcs hne, List.flatten_cons,
      chunkList_flatten cs hcs (lst.drop cs)]
    exact List.take_append_drop cs lst
termination_by lst.length
decreasing_by
  have hn : 0 < lst.length := List.length_pos.mpr hne
  simp only [List.length_drop]
  omega

theorem chunkList_length (cs : Nat) (lst : List α) :
    (chunkList lst cs).length = (lst.length + cs - 1) / cs := by
  unfold chunkList
  rw [List.length_map, List.length_range']

theorem chunkList_dropLast_length (cs : Nat) (hcs : 0 < cs) (lst : List α) :
    ∀ c ∈ (chunkList lst cs).dropLast, c.length = cs := by
  by_cases hne : lst = []
  · subst hne
    rw [chunkList_nil]
    intro c hc
    simp at hc
  · rw [chunkList_cons lst cs hcs hne]
    by_cases hdrop : lst.drop cs = []
    · rw [hdrop, chunkList_nil]
      intro c hc
      simp at hc
    · have hrest := chunkList_ne_nil (lst.drop cs) cs hcs hdrop
      rw [List.dropLast_cons_of_ne_nil hrest]
      intro c hc
      rcases List.mem_cons.mp hc with hc | hc
      · subst hc
        have hlen : cs < lst.length := by
          have := List.length_drop cs lst
          have hpos : 0 < (lst.drop cs).length := List.length_pos.mpr hdrop
          omega
        rw [List.length_take]
        omega
      · exact chunkList_dropLast_length cs hcs (lst.drop cs) c hc
termination_by lst.length
decreasing_by
  have hn : 0 < lst.length := List.length_pos.mpr hne
  simp only [List.length_drop]
  omega

theorem chunkList_getLast (cs : Nat) (hcs : 0 < cs) (lst : List α) (hne : lst ≠ []) :
    ∃ last, (chunkList lst cs).getLast? = some last ∧ 0 < last.length ∧ last.length ≤ cs := by
  rw [chunkList_cons lst cs hcs hne]
  by_cases hdrop : lst.drop cs = []
  · rw [hdrop, chunkList_nil]
    refine ⟨lst.take cs, rfl, ?_, ?_⟩
    · rw [List.length_take]
      have hn : 0 < lst.length := List.length_pos.mpr hne
      omega
    · rw [List.length_take]
      omega
  · obtain ⟨last, hlast, hpos, hle⟩ := chunkList_getLast cs hcs (lst.drop cs) hdrop
    refine ⟨last, ?_, hpos, hle⟩
    have hrest := chunkList_ne_nil (lst.drop cs) cs hcs hdrop
    rcases hrestl : chunkList (lst.drop cs) cs with _ | ⟨r, rs⟩
    · exact absurd hrestl hrest
    · rw [List.getLast?_cons_cons]
      rw [hrestl] at hlast
      exact hlast
termination_by lst.length
decreasing_by
  have hn : 0 < lst.length := List.length_pos.mpr hne
  simp only [List.length_drop]
  omega

/-! ## Helper lemmas: `collect_processed_pdfs` -/

theorem setInsert_subset (x : Json) (s : List Json) : s ⊆ setInsert x s := by
  unfold setInsert
  split
  · exact fun a ha => ha
  · exact fun a ha => List.mem_append_left _ ha

theorem mem_setInsert_self (x : Json) (s : List Json) : x ∈ setInsert x s := by
  unfold setInsert
  split
  · assumption
  · exact List.mem_append_right _ (List.mem_singleton.mpr rfl)

theorem setInsert_nodup (x : Json) (s : List Json) (h : s.Nodup) : (setInsert x s).Nodup := by
  unfold setInsert
  split
  · exact h
  · rename_i hx
    rw [List.nodup_append]
    exact ⟨h, List.nodup_singleton x, fun a ha hax => hx (by rwa [List.mem_singleton.mp hax] at ha)⟩

theorem processLine_subset {acc acc' : List Json} {l : ArchiveLine}
    (h : processLine acc l = .ok acc') : acc ⊆ acc' := by
  cases l with
  | none =>
    cases h
    exact fun a ha => ha
  | some j =>
    simp only [processLine] at h
    cases hm : pyGetMetadataFilePath j with
    | error e => rw [hm] at h; cases h
    | ok o =>
      rw [hm] at h
      cases o with
      | none =>
        cases h
        exact fun a ha => ha
      | some v =>
        cases h
        split
        · exact setInsert_subset v acc
        · exact fun a ha => ha

theorem processLine_nodup {acc acc' : List Json} {l : ArchiveLine}
    (h : processLine acc l = .ok acc') (hn : acc.Nodup) : acc'.Nodup := by
  cases l with
  | none => cases h; exact hn
  | some j =>
    simp only [processLine] at h
    cases hm : pyGetMetadataFilePath j with
    | error e => rw [hm] at h; cases h
    | ok o =>
      rw [hm] at h
      cases o with
      | none => cases h; exact hn
      | some v =>
        cases h
        split
        · exact setInsert_nodup v acc hn
        · exact hn

theorem processLine_mem {acc acc' : List Json} {j : Json} {v : Json}
    (h : processLine acc (some j) = .ok acc')
    (hv : pyGetMetadataFilePath j = .ok (some v)) (ht : pyTruthy v = true) : v ∈ acc' := by
  simp only [processLine] at h
  rw [hv] at h
  cases h
  rw [if_pos ht]
  exact mem_setInsert_self v acc

theorem processLines_subset {acc acc' : List Json} :
    ∀ {ls : List ArchiveLine}, processLines acc ls = .ok acc' → acc ⊆ acc' := by
  intro ls
  induction ls generalizing acc with
  | nil => intro h; cases h; exact fun a ha => ha
  | cons l ls ih =>
    intro h
    unfold processLines at h
    cases hl : processLine acc l with
    | error e => rw [hl] at h; cases h
    | ok acc2 =>
      rw [hl] at h
      exact fun a ha => ih h (processLine_subset hl ha)

theorem processLines_nodup {acc acc' : List Json} :
    ∀ {ls : List ArchiveLine}, processLines acc ls = .ok acc' → acc.Nodup → acc'.Nodup := by
  intro ls
  induction ls generalizing acc with
  | nil => intro h hn; cases h; exact hn
  | cons l ls ih =>
    intro h hn
    unfold processLines at h
    cases hl : processLine acc l with
    | error e => rw [hl] at h; cases h
    | ok acc2 =>
      rw [hl] at h
      exact ih h (processLine_nodup hl hn)

theorem processLines_mem {acc acc' : List Json} {j v : Json} :
    ∀ {ls : List ArchiveLine}, processLines acc ls = .ok acc' → some j ∈ ls →
      pyGetMetadataFilePath j = .ok (some v) → pyTruthy v = true → v ∈ acc' := by
  intro ls
  induction ls generalizing acc with
  | nil => intro _ hmem; cases hmem
  | cons l ls ih =>
    intro h hmem hv ht
    unfold processLines at h
    cases hl : processLine acc l with
    | error e => rw [hl] at h; cases h
    | ok acc2 =>
      rw [hl] at h
      rcases List.mem_cons.mp hmem with hmem | hmem
      · subst hmem
        exact processLines_subset h (processLine_mem hl hv ht)
      · exact ih h hmem hv ht

theorem collectGo_subset {acc s : List Json} :
    ∀ {d : Dir}, collectGo acc d = .ok s → acc ⊆ s := by
  intro d
  induction d generalizing acc with
  | nil => intro h; cases h; exact fun a ha => ha
  | cons f d ih =>
    intro h
    rcases f with ⟨fname, lines⟩
    unfold collectGo at h
    by_cases he : pyEndsWith fname ".jsonl.gz" = true
    · rw [if_pos he] at h
      cases hl : processLines acc lines with
      | error e => rw [hl] at h; cases h
      | ok acc2 =>
        rw [hl] at h
        exact fun a ha => ih h (processLines_subset hl ha)
    · rw [if_neg he] at h
      exact ih h

theorem collectGo_nodup {acc s : List Json} :
    ∀ {d : Dir}, collectGo acc d = .ok s → acc.Nodup → s.Nodup := by
  intro d
  induction d generalizing acc with
  | nil => intro h hn; cases h; exact hn
  | cons f d ih =>
    intro h hn
    rcases f with ⟨fname, lines⟩
    unfold collectGo at h
    by_cases he : pyEndsWith fname ".jsonl.gz" = true
    · rw [if_pos he] at h
      cases hl : processLines acc lines with
      | error e => rw [hl] at h; cases h
      | ok acc2 =>
        rw [hl] at h
        exact ih h (processLines_nodup hl hn)
    · rw [if_neg he] at h
      exact ih h hn

theorem processLines_filter_isSome (acc : List Json) :
    ∀ ls : List ArchiveLine, processLines acc (ls.filter Option.isSome) = processLines acc ls := by
  intro ls
  induction ls generalizing acc with
  | nil => rfl
  | cons l ls ih =>
    cases l with
    | none =>
      have : processLine acc none = .ok acc := rfl
      simp only [List.filter_cons, Option.isSome_none, Bool.false_eq_true, if_neg,
        ite_false]
      rw [ih]
      conv_rhs => unfold processLines
      rfl
    | some j =>
      simp only [List.filter_cons, Option.isSome_some, ite_true]
      unfold processLines
      cases hl : processLine acc (some j) with
      | error e => rfl
      | ok acc2 => exact ih acc2

theorem collectGo_stripBad (acc : List Json) :
    ∀ d : Dir, collectGo acc (d.map (fun f => (f.1, f.2.filter Option.isSome))) = collectGo acc d := by
  intro d
  induction d generalizing acc with
  | nil => rfl
  | cons f d ih =>
    rcases f with ⟨fname, lines⟩
    simp only [List.map_cons]
    unfold collectGo
    by_cases he : pyEndsWith fname ".jsonl.gz" = true
    · rw [if_pos he, if_pos he]
      rw [processLines_filter_isSome]
      cases hl : processLines acc lines with
      | error e => rfl
      | ok acc2 => exact ih acc2
    · rw [if_neg he, if_neg he]
      exact ih acc

theorem collectGo_skip {fname : String} {lines : List ArchiveLine} {d : Dir} {acc : List Json}
    (hf : pyEndsWith fname ".jsonl.gz" = false) :
    collectGo acc ((fname, lines) :: d) = collectGo acc d := by
  conv_lhs => unfold collectGo
  simp [hf]

/-! ## Helper lemmas: `get_next_part_index` -/

theorem nextIndexFold_cons (f : String × List ArchiveLine) (d : Dir) (m : Int) :
    nextIndexFold (f :: d) m =
      nextIndexFold d (match regexMatchPart f.1 with
        | some idx => max m (idx : Int)
        | none => m) := by
  unfold nextIndexFold
  rw [List.foldl_cons]

theorem nextIndexFold_mono : ∀ (d : Dir) (m : Int), m ≤ nextIndexFold d m := by
  intro d
  induction d with
  | nil => intro m; exact le_refl m
  | cons f d ih =>
    intro m
    rw [nextIndexFold_cons]
    cases hm : regexMatchPart f.1 with
    | none => exact ih m
    | some idx => exact le_trans (le_max_left _ _) (ih _)

theorem nextIndexFold_ge {fname : String} {lines : List ArchiveLine} {j : Nat} :
    ∀ (d : Dir) (m : Int), (fname, lines) ∈ d → regexMatchPart fname = some j →
      (j : Int) ≤ nextIndexFold d m := by
  intro d
  induction d with
  | nil => intro m hmem; cases hmem
  | cons f d ih =>
    intro m hmem hj
    rw [nextIndexFold_cons]
    rcases List.mem_cons.mp hmem with hmem | hmem
    · subst hmem
      rw [hj]
      exact le_trans (le_max_right _ _) (nextIndexFold_mono d _)
    · exact ih _ hmem hj

theorem get_next_part_index_gt {fname : String} {lines : List ArchiveLine} {j : Nat} {d : Dir}
    (hmem : (fname, lines) ∈ d) (hj : regexMatchPart fname = some j) :
    j < get_next_part_index d := by
  have h := nextIndexFold_ge d (-1) hmem hj
  unfold get_next_part_index
  omega

theorem nextIndexFold_eq_foldl : ∀ (d : Dir) (m : Int),
    nextIndexFold d m = (partIndices d).foldl (fun (a : Int) (i : Nat) => max a (i : Int)) m := by
  intro d
  induction d with
  | nil => intro m; rfl
  | cons f d ih =>
    intro m
    rw [nextIndexFold_cons]
    unfold partIndices
    rw [List.filterMap_cons]
    cases hm : regexMatchPart f.1 with
    | none => exact ih m
    | some idx =>
      rw [List.foldl_cons]
      exact ih _

theorem foldl_max_mono : ∀ (l : List Nat) (m : Int),
    m ≤ l.foldl (fun (a : Int) (i : Nat) => max a (i : Int)) m := by
  intro l
  induction l with
  | nil => intro m; exact le_refl m
  | cons i l ih =>
    intro m
    rw [List.foldl_cons]
    exact le_trans (le_max_left _ _) (ih _)

theorem foldl_max_ge : ∀ (l : List Nat) (m : Int) (i : Nat), i ∈ l →
    (i : Int) ≤ l.foldl (fun (a : Int) (i : Nat) => max a (i : Int)) m := by
  intro l
  induction l with
  | nil => intro m i hi; cases hi
  | cons i0 l ih =>
    intro m i hi
    rw [List.foldl_cons]
    rcases List.mem_cons.mp hi with hi | hi
    · subst hi
      exact le_trans (le_max_right _ _) (foldl_max_mono l _)
    · exact ih _ i hi

theorem foldl_max_attained : ∀ (l : List Nat) (m : Int),
    l.foldl (fun (a : Int) (i : Nat) => max a (i : Int)) m = m ∨
      ∃ j ∈ l, l.foldl (fun (a : Int) (i : Nat) => max a (i : Int)) m = (j : Int) := by
  intro l
  induction l with
  | nil => intro m; exact .inl rfl
  | cons i l ih =>
    intro m
    rw [List.foldl_cons]
    rcases ih (max m (i : Int)) with h | ⟨j, hj, hjeq⟩
    · rcases max_choice m (i : Int) with hm | hm
      · exact .inl (h.trans hm)
      · exact .inr ⟨i, List.mem_cons_self i l, h.trans hm⟩
    · exact .inr ⟨j, List.mem_cons_of_mem _ hj, hjeq⟩

/-! ## Helper lemmas: `runChunks` -/

theorem runChunks_written_ge (batch : List String → List Json) (start : Nat) :
    ∀ (cs : List (List String)) (i : Nat) (d : Dir) (k : Nat) (recs : List Json),
      (k, recs) ∈ (runChunks batch start cs i d).2 → start + i ≤ k := by
  intro cs
  induction cs with
  | nil => intro i d k recs h; cases h
  | cons c cs ih =>
    intro i d k recs h
    unfold runChunks at h
    rcases List.mem_cons.mp h with h | h
    · cases h
      exact le_refl _
    · have := ih (i + 1) _ k recs h
      omega

theorem runChunks_written_length (batch : List String → List Json) (start : Nat) :
    ∀ (cs : List (List String)) (i : Nat) (d : Dir),
      (runChunks batch start cs i d).2.length = cs.length := by
  intro cs
  induction cs with
  | nil => intro i d; rfl
  | cons c cs ih =>
    intro i d
    unfold runChunks
    simp only [List.length_cons]
    rw [ih]

theorem runChunks_written_mem (batch : List String → List Json) (start : Nat) :
    ∀ (cs : List (List String)) (i : Nat) (d : Dir) (c : List String), c ∈ cs →
      ∃ k, (k, batch c) ∈ (runChunks batch start cs i d).2 := by
  intro cs
  induction cs with
  | nil => intro i d c h; cases h
  | cons c0 cs ih =>
    intro i d c h
    rcases List.mem_cons.mp h with h | h
    · subst h
      exact ⟨start + i, List.mem_cons_self _ _⟩
    · obtain ⟨k, hk⟩ := ih (i + 1) (dirAppend d (partFileName (start + i)) (batch c0)) c h
      exact ⟨k, List.mem_cons_of_mem _ hk⟩

/-! ## Helper lemmas: `to_jsonl_gz` and `process_batch` -/

theorem string_data_append : ∀ s t : String, (s ++ t).data = s.data ++ t.data
  | ⟨_⟩, ⟨_⟩ => rfl

theorem newline_data : ("\n" : String).data = ['\n'] := rfl

theorem writeSamples_data (dumps : Json → String) :
    ∀ (samples : List Json) (content : String),
      (writeSamples dumps samples content).data
        = content.data ++ (samples.map (fun s => (dumps s).data ++ ['\n'])).flatten := by
  intro samples
  induction samples with
  | nil =>
    intro content
    simp [writeSamples]
  | cons s rest ih =>
    intro content
    unfold writeSamples
    rw [ih]
    simp [string_data_append, newline_data, List.append_assoc]

theorem flatten_newline_count (dumps : Json → String) :
    ∀ samples : List Json, (∀ s ∈ samples, (dumps s).data.count '\n' = 0) →
      ((samples.map (fun s => (dumps s).data ++ ['\n'])).flatten).count '\n' = samples.length := by
  intro samples
  induction samples with
  | nil => intro _; rfl
  | cons s rest ih =>
    intro hd
    simp only [List.map_cons, List.flatten_cons, List.count_append, List.length_cons]
    rw [ih (fun x hx => hd x (List.mem_cons_of_mem _ hx)), hd s (List.mem_cons_self _ _)]
    simp [List.count_cons]
    omega

theorem length_filterMap_eq_countP {α β : Type} (f : α → Option β) :
    ∀ l : List α, (l.filterMap f).length = l.countP (fun a => (f a).isSome) := by
  intro l
  induction l with
  | nil => rfl
  | cons a l ih =>
    rw [List.filterMap_cons]
    cases hf : f a with
    | none => simp [List.countP_cons, hf, ih]
    | some b => simp [List.countP_cons, hf, ih]

/-! ## Helper lemmas: `process` -/

theorem process_run_eq {batch : List String → List Json} {input_dir : String}
    {listing : List String} {d : Dir} {processed : List Json}
    (hc : collect_processed_pdfs d = .ok processed)
    (hne : pendingPdfs processed (discoveredPdfs input_dir listing) ≠ []) :
    process batch input_dir listing d =
      .ok ⟨(runChunks batch (get_next_part_index d)
              (chunkList (pendingPdfs processed (discoveredPdfs input_dir listing)) CHUNK_SIZE) 0 d).1,
           (runChunks batch (get_next_part_index d)
              (chunkList (pendingPdfs processed (discoveredPdfs input_dir listing)) CHUNK_SIZE) 0 d).2, 1⟩ := by
  unfold process
  rw [hc]
  have hemp : (pendingPdfs processed (discoveredPdfs input_dir listing)).isEmpty = false := by
    rcases h : pendingPdfs processed (discoveredPdfs input_dir listing) with _ | ⟨p, ps⟩
    · exact absurd h hne
    · rfl
  simp only [hemp, Bool.false_eq_true, if_false]

theorem process_collect_error {batch : List String → List Json} {input_dir : String}
    {listing : List String} {d : Dir} {e : Unit}
    (hc : collect_processed_pdfs d = .error e) :
    process batch input_dir listing d = .error e := by
  unfold process
  rw [hc]

theorem process_empty_eq {batch : List String → List Json} {input_dir : String}
    {listing : List String} {d : Dir} {processed : List Json}
    (hc : collect_processed_pdfs d = .ok processed)
    (hp : pendingPdfs processed (discoveredPdfs input_dir listing) = []) :
    process batch input_dir listing d = .ok ⟨d, [], 0⟩ := by
  unfold process
  rw [hc]
  simp only [hp, List.isEmpty_nil, if_true]

theorem process_written_indices_fresh {batch : List String → List Json} {input_dir : String}
    {listing : List String} {d : Dir} {r : RunResult}
    (hr : process batch input_dir listing d = .ok r) :
    ∀ k recs, (k, recs) ∈ r.written → ∀ fname lines, (fname, lines) ∈ d →
      ∀ j, regexMatchPart fname = some j → j < k := by
  cases hc : collect_processed_pdfs d with
  | error e =>
    rw [process_collect_error hc] at hr
    cases hr
  | ok processed =>
    by_cases hp : pendingPdfs processed (discoveredPdfs input_dir listing) = []
    · rw [process_empty_eq hc hp] at hr
      cases hr
      intro k recs hk
      exact absurd hk (List.not_mem_nil _)
    · rw [process_run_eq hc hp] at hr
      cases hr
      intro k recs hk fname lines hmem j hj
      have h1 := runChunks_written_ge batch (get_next_part_index d)
        (chunkList (pendingPdfs processed (discoveredPdfs input_dir listing)) CHUNK_SIZE) 0 d
        k recs hk
      have h2 := get_next_part_index_gt hmem hj
      omega

/-! ## Claim theorems -/

/-- C3: for every list of length N and every chunk size S > 0, `chunk_list`
yields exactly ⌈N/S⌉ contiguous sub-lists whose in-order concatenation equals
the input list, with every chunk except possibly the last of size exactly S,
and the last chunk of size between 1 and S when N > 0. -/
theorem chunk_list_partition {α : Type} (lst : List α) (S : Nat) (hS : 0 < S) :
    (chunkList lst S).length = lst.length ⌈/⌉ S ∧
    (chunkList lst S).flatten = lst ∧
    (∀ c ∈ (chunkList lst S).dropLast, c.length = S) ∧
    (lst ≠ [] → ∃ last, (chunkList lst S).getLast? = some last ∧
      1 ≤ last.length ∧ last.length ≤ S) := by
  refine ⟨?_, chunkList_flatten S hS lst, chunkList_dropLast_length S hS lst, ?_⟩
  · rw [chunkList_length, Nat.ceilDiv_eq_add_pred_div]
  · intro hne
    obtain ⟨last, h1, h2, h3⟩ := chunkList_getLast S hS lst hne
    exact ⟨last, h1, h2, h3⟩

theorem chunk_list_partition_witness :
    0 < 2 ∧
    ((chunkList [1, 2, 3, 4, 5] 2).length = 5 ⌈/⌉ 2 ∧
      (chunkList [1, 2, 3, 4, 5] 2).flatten = [1, 2, 3, 4, 5] ∧
      (∀ c ∈ (chunkList [1, 2, 3, 4, 5] 2).dropLast, c.length = 2) ∧
      ([1, 2, 3, 4, 5] ≠ ([] : List Nat) → ∃ last, (chunkList [1, 2, 3, 4, 5] 2).getLast? = some last ∧
        1 ≤ last.length ∧ last.length ≤ 2)) :=
  ⟨by decide, chunk_list_partition [1, 2, 3, 4, 5] 2 (by decide)⟩

/-- C8: `to_jsonl_gz` appends to the target's existing content (append mode)
exactly one serialized record followed by a newline per input record, in
input order; when the serializer emits no raw newline (as `json.dumps`
does not), the file gains exactly one line per record.  The `with` block
of the source closes the file on completion or error; in this model the
file content is exactly the completed write. -/
theorem to_jsonl_gz_appends_one_line_per_record (dumps : Json → String)
    (existing : String) (samples : List Json) :
    (to_jsonl_gz dumps existing samples).data
        = existing.data ++ (samples.map (fun s => (dumps s).data ++ ['\n'])).flatten ∧
    ((∀ s ∈ samples, (dumps s).data.count '\n' = 0) →
      (to_jsonl_gz dumps existing samples).data.count '\n'
        = existing.data.count '\n' + samples.length) := by
  constructor
  · exact writeSamples_data dumps samples existing
  · intro hd
    have he : (to_jsonl_gz dumps existing samples).data
        = existing.data ++ (samples.map (fun s => (dumps s).data ++ ['\n'])).flatten :=
      writeSamples_data dumps samples existing
    rw [he, List.count_append, flatten_newline_count dumps samples hd]

theorem to_jsonl_gz_appends_one_line_per_record_witness :
    (to_jsonl_gz (fun _ => "r") "" [Json.null, Json.bool true]).data.count '\n'
      = ("" : String).data.count '\n' + 2 :=
  (to_jsonl_gz_appends_one_line_per_record (fun _ => "r") "" [Json.null, Json.bool true]).2
    (by decide)

/-- C4 counterexample: `re.match` anchors only at the start of the file name,
so `part_00099.jsonl.gzfoo` — which is NOT of the form
`part_<exactly 5 digits>.jsonl.gz` — still determines the result: the code
returns 100 where the claim (no matching file name) requires 0. -/
theorem get_next_part_index_start_anchored_cex :
    get_next_part_index [("part_00099.jsonl.gzfoo", [])] = 100 ∧
    specNextPartIndex [("part_00099.jsonl.gzfoo", [])] = 0 ∧
    get_next_part_index [("part_00099.jsonl.gzfoo", [])]
      ≠ specNextPartIndex [("part_00099.jsonl.gzfoo", [])] := by decide

/-- C4 (amended): `get_next_part_index` returns one greater than the maximum
index among file names that BEGIN with `part_<5 digits>.jsonl.gz` (Python
`re.match` is a prefix match, so trailing characters are ignored), and 0 if
no file name so begins; a file name the matcher rejects contributes
nothing. -/
theorem get_next_part_index_characterization (d : Dir) :
    (partIndices d = [] → get_next_part_index d = 0) ∧
    (∀ j ∈ partIndices d, j < get_next_part_index d) ∧
    (partIndices d ≠ [] → ∃ j ∈ partIndices d, get_next_part_index d = j + 1) ∧
    (∀ fname lines, regexMatchPart fname = none →
      get_next_part_index ((fname, lines) :: d) = get_next_part_index d) := by
  have hF : nextIndexFold d (-1)
      = (partIndices d).foldl (fun (a : Int) (i : Nat) => max a (i : Int)) (-1) :=
    nextIndexFold_eq_foldl d (-1)
  refine ⟨?_, ?_, ?_, ?_⟩
  · intro h
    unfold get_next_part_index
    rw [hF, h]
    rfl
  · intro j hj
    unfold get_next_part_index
    have := foldl_max_ge (partIndices d) (-1) j hj
    rw [hF]
    omega
  · intro hne
    rcases foldl_max_attained (partIndices d) (-1) with h | ⟨j, hj, hjeq⟩
    · exfalso
      obtain ⟨j0, hj0⟩ := List.exists_mem_of_ne_nil _ hne
      have hge := foldl_max_ge (partIndices d) (-1) j0 hj0
      rw [h] at hge
      omega
    · refine ⟨j, hj, ?_⟩
      unfold get_next_part_index
      rw [hF, hjeq]
      omega
  · intro fname lines hn
    unfold get_next_part_index
    rw [nextIndexFold_cons, hn]

theorem get_next_part_index_characterization_witness :
    ∃ j ∈ partIndices [("part_00003.jsonl.gz", ([] : List ArchiveLine)), ("notes.txt", [])],
      get_next_part_index [("part_00003.jsonl.gz", []), ("notes.txt", [])] = j + 1 :=
  (get_next_part_index_characterization
    [("part_00003.jsonl.gz", []), ("notes.txt", [])]).2.2.1 (by decide)

/-- C5 counterexample: with the relative `input_dir` `"in"` and one listed
file `a.pdf`, discovery produces the path `in/a.pdf`, which is not an
absolute (let alone canonical) path: the code only joins `input_dir` onto
the name, it performs no normalization. -/
theorem discovery_not_absolute_cex :
    discoveredPdfs "in" ["a.pdf"] = ["in/a.pdf"] ∧
    isAbsolutePath "in/a.pdf" = false := by decide

/-- C5 (amended): discovery lists exactly the directory entries whose
lowercased name ends in `.pdf`, prefixes each with the input directory via
`os.path.join` (no absolute/canonical normalization), sorts the result
lexicographically, and then removes exactly those paths whose identifier
string equals an element of the processed set; the pending list stays
sorted. -/
theorem discovery_characterization (input_dir : String) (listing : List String)
    (processed : List Json) :
    (∀ x, x ∈ discoveredPdfs input_dir listing ↔
      ∃ f ∈ listing, pyEndsWith (pyLower f) ".pdf" = true ∧ x = osPathJoin input_dir f) ∧
    (discoveredPdfs input_dir listing).Sorted pyLeRel ∧
    (∀ x, x ∈ pendingPdfs processed (discoveredPdfs input_dir listing) ↔
      (x ∈ discoveredPdfs input_dir listing ∧ Json.str x ∉ processed)) ∧
    (pendingPdfs processed (discoveredPdfs input_dir listing)).Sorted pyLeRel := by
  refine ⟨?_, sortStrings_sorted _, ?_, ?_⟩
  · intro x
    unfold discoveredPdfs
    rw [mem_sortStrings]
    simp only [List.mem_map, List.mem_filter]
    constructor
    · rintro ⟨f, ⟨hf1, hf2⟩, rfl⟩
      exact ⟨f, hf1, hf2, rfl⟩
    · rintro ⟨f, hf1, hf2, rfl⟩
      exact ⟨f, ⟨hf1, hf2⟩, rfl⟩
  · intro x
    unfold pendingPdfs
    rw [List.mem_filter]
    simp
  · unfold pendingPdfs
    exact List.Pairwise.filter _ (sortStrings_sorted _)

/-- C6: scrubbing the unparseable lines out of every archive leaves
`collect_processed_pdfs` unchanged — a line that fails to parse is skipped,
contributes nothing, and never escalates out of the scan — and a successful
scan returns a set: each identifier occurs at most once however many lines
or files repeat it. -/
theorem collect_processed_pdfs_skips_and_dedups (d : Dir) :
    collect_processed_pdfs (d.map (fun f => (f.1, f.2.filter Option.isSome)))
        = collect_processed_pdfs d ∧
    (∀ s, collect_processed_pdfs d = .ok s → s.Nodup) := by
  constructor
  · exact collectGo_stripBad [] d
  · intro s hs
    exact collectGo_nodup hs List.nodup_nil

theorem collect_processed_pdfs_skips_and_dedups_witness :
    ([Json.str "x"] : List Json).Nodup :=
  (collect_processed_pdfs_skips_and_dedups
    [("a.jsonl.gz",
      [none,
       some (Json.obj (.cons "metadata" (.obj (.cons "file_path" (.str "x") .nil)) .nil)),
       some (Json.obj (.cons "metadata" (.obj (.cons "file_path" (.str "x") .nil)) .nil))])]).2
    [Json.str "x"] (by decide)

/-- C9: a line that parses to a JSON object contributes its
`metadata.file_path` value to the processed set only when that value is
present and truthy: no `metadata` field, no `file_path` key (the lookup
yields Python `None`), or a falsy value — in particular the empty string —
contributes nothing, while a present truthy value is inserted.  A
single-file archive whose only parsed record lacks `metadata` consequently
yields the empty processed set (so that source is reprocessed on resume). -/
theorem collect_adds_only_truthy_file_path (acc : List Json) (kvs : JsonFields) :
    (jsonGet kvs "metadata" = none → processLine acc (some (Json.obj kvs)) = .ok acc) ∧
    (∀ mkvs, jsonGet kvs "metadata" = some (Json.obj mkvs) →
      ((jsonGet mkvs "file_path" = none → processLine acc (some (Json.obj kvs)) = .ok acc) ∧
       (∀ v, jsonGet mkvs "file_path" = some v → pyTruthy v = false →
          processLine acc (some (Json.obj kvs)) = .ok acc) ∧
       (∀ v, jsonGet mkvs "file_path" = some v → pyTruthy v = true →
          processLine acc (some (Json.obj kvs)) = .ok (setInsert v acc)))) ∧
    (∀ fname, jsonGet kvs "metadata" = none →
      collect_processed_pdfs [(fname, [some (Json.obj kvs)])] = .ok []) := by
  refine ⟨?_, ?_, ?_⟩
  · intro hm
    simp only [processLine, pyGetMetadataFilePath, hm, Option.getD_none]
    rfl
  · intro mkvs hm
    refine ⟨?_, ?_, ?_⟩
    · intro hf
      simp only [processLine, pyGetMetadataFilePath, hm, Option.getD_some, hf]
    · intro v hf ht
      simp only [processLine, pyGetMetadataFilePath, hm, Option.getD_some, hf, ht]
      rfl
    · intro v hf ht
      simp only [processLine, pyGetMetadataFilePath, hm, Option.getD_some, hf, ht]
      rfl
  · intro fname hm
    have hl0 : processLine [] (some (Json.obj kvs)) = .ok [] := by
      simp only [processLine, pyGetMetadataFilePath, hm, Option.getD_none]
      rfl
    unfold collect_processed_pdfs
    cases hb : pyEndsWith fname ".jsonl.gz" with
    | false =>
      rw [collectGo_skip hb]
      rfl
    | true =>
      unfold collectGo
      rw [if_pos hb]
      have h1 : processLines [] [some (Json.obj kvs)] = .ok [] := by
        unfold processLines
        rw [hl0]
        rfl
      rw [h1]
      rfl

theorem collect_adds_only_truthy_file_path_witness :
    processLine [] (some (Json.obj .nil)) = .ok [] :=
  (collect_adds_only_truthy_file_path [] .nil).1 (by decide)

/-- Every file name exactly of the spec's form `part_<5 digits>.jsonl.gz`
ends with `.jsonl.gz`. -/
theorem full_match_implies_archive_suffix {fname : String}
    (h : (specFullMatchPart fname).isSome = true) :
    pyEndsWith fname ".jsonl.gz" = true := by
  unfold specFullMatchPart at h
  split at h
  · rename_i hcond
    obtain ⟨h1, h2, h3, h4⟩ := hcond
    have hsuf : (".jsonl.gz" : String).data.length = 9 := by decide
    have hlen10 : 10 ≤ fname.data.length := by
      rw [List.length_take, List.length_drop] at h2
      omega
    have hlen : fname.data.length = 19 := by
      have hd : (fname.data.drop 10).length = (".jsonl.gz" : String).data.length := by rw [h4]
      rw [List.length_drop] at hd
      omega
    unfold pyEndsWith
    rw [decide_eq_true_eq]
    constructor
    · omega
    · have he : fname.data.length - (".jsonl.gz" : String).data.length = 10 := by omega
      rw [he]
      exact h4
  · simp at h

/-- C10 counterexample: `part_00007.jsonl.gz.tmp` is consulted by the part
sequencer — `re.match` accepts it with index 7, making `get_next_part_index`
return 8 — yet it is NOT scanned by `collect_processed_pdfs` (its name does
not end with `.jsonl.gz`), so the identifier `x.pdf` stored in it does not
enter the processed set: the set of files consulted for dedup is not a
superset of the set consulted by the sequencer. -/
theorem collect_scan_not_superset_cex :
    (regexMatchPart "part_00007.jsonl.gz.tmp").isSome = true ∧
    pyEndsWith "part_00007.jsonl.gz.tmp" ".jsonl.gz" = false ∧
    collect_processed_pdfs [("part_00007.jsonl.gz.tmp",
      [some (Json.obj (.cons "metadata" (.obj (.cons "file_path" (.str "x.pdf") .nil)) .nil))])]
      = .ok [] ∧
    get_next_part_index [("part_00007.jsonl.gz.tmp",
      [some (Json.obj (.cons "metadata" (.obj (.cons "file_path" (.str "x.pdf") .nil)) .nil))])]
      = 8 := by decide

/-- C10 (amended): the dedup scan reads exactly the files whose name ends in
`.jsonl.gz` — including non-part archives, whose truthy identifiers still
enter the processed set — and skips every other file.  Every name fully of
the form `part_<5 digits>.jsonl.gz` ends in `.jsonl.gz`, so the scan covers
all true part files; but the sequencer's prefix matcher may additionally
consult names the scan skips, so the scan set is only a superset of the
full-pattern part files, not of everything the sequencer matches. -/
theorem collect_scan_coverage (d : Dir) :
    (∀ fname : String, (specFullMatchPart fname).isSome = true →
      pyEndsWith fname ".jsonl.gz" = true) ∧
    (∀ fname lines (acc : List Json), pyEndsWith fname ".jsonl.gz" = false →
      collectGo acc ((fname, lines) :: d) = collectGo acc d) ∧
    (∀ fname lines s j v, pyEndsWith fname ".jsonl.gz" = true → some j ∈ lines →
      pyGetMetadataFilePath j = .ok (some v) → pyTruthy v = true →
      collect_processed_pdfs ((fname, lines) :: d) = .ok s → v ∈ s) := by
  refine ⟨fun fname h => full_match_implies_archive_suffix h, ?_, ?_⟩
  · intro fname lines acc hf
    exact collectGo_skip hf
  · intro fname lines s j v he hj hv ht hs
    unfold collect_processed_pdfs at hs
    unfold collectGo at hs
    rw [if_pos he] at hs
    cases hl : processLines [] lines with
    | error e => rw [hl] at hs; cases hs
    | ok acc2 =>
      rw [hl] at hs
      exact collectGo_subset hs (processLines_mem hl hj hv ht)

theorem collect_scan_coverage_witness :
    Json.str "x.pdf" ∈ [Json.str "x.pdf"] :=
  (collect_scan_coverage []).2.2 "extra.jsonl.gz"
    [some (Json.obj (.cons "metadata" (.obj (.cons "file_path" (.str "x.pdf") .nil)) .nil))]
    [Json.str "x.pdf"]
    (Json.obj (.cons "metadata" (.obj (.cons "file_path" (.str "x.pdf") .nil)) .nil))
    (Json.str "x.pdf")
    (by decide) (by decide) (by decide) (by decide) (by decide)

/-- C1: if subtracting the already-processed identifiers from the discovered
input list leaves the pending work list empty, `process` returns
immediately: the output directory is left untouched (no new archive part
file is created), nothing is handed to the archive writer, and the part
sequencer `get_next_part_index` is never invoked. -/
theorem process_noop_when_no_pending (batch : List String → List Json)
    (input_dir : String) (listing : List String) (d : Dir) (processed : List Json)
    (hc : collect_processed_pdfs d = .ok processed)
    (hp : pendingPdfs processed (discoveredPdfs input_dir listing) = []) :
    process batch input_dir listing d = .ok ⟨d, [], 0⟩ :=
  process_empty_eq hc hp

theorem process_noop_when_no_pending_witness :
    process (fun _ => []) "in" ["a.pdf"]
      [("part_00000.jsonl.gz",
        [some (Json.obj (.cons "metadata" (.obj (.cons "file_path" (.str "in/a.pdf") .nil)) .nil))])]
      = .ok ⟨[("part_00000.jsonl.gz",
          [some (Json.obj (.cons "metadata" (.obj (.cons "file_path" (.str "in/a.pdf") .nil)) .nil))])],
          [], 0⟩ :=
  process_noop_when_no_pending (fun _ => []) "in" ["a.pdf"]
    [("part_00000.jsonl.gz",
      [some (Json.obj (.cons "metadata" (.obj (.cons "file_path" (.str "in/a.pdf") .nil)) .nil))])]
    [Json.str "in/a.pdf"] (by decide) (by decide)

/-- C2: for two successive runs of `process` against the same output
directory, every part index used by the later run (start index plus chunk
offset, the number embedded in the written file name) strictly exceeds every
part index present in the directory the later run starts from — in
particular every index the first run wrote — so indices are never reused.
(`regexMatchPart` is the source's matcher; it accepts every file name of
the part form, so the conclusion covers all indices present.) -/
theorem part_indices_monotone_across_runs
    (batch1 batch2 : List String → List Json) (input1 input2 : String)
    (listing1 listing2 : List String) (d0 : Dir) (r1 r2 : RunResult)
    (_h1 : process batch1 input1 listing1 d0 = .ok r1)
    (h2 : process batch2 input2 listing2 r1.outDir = .ok r2) :
    ∀ k recs, (k, recs) ∈ r2.written → ∀ fname lines, (fname, lines) ∈ r1.outDir →
      ∀ j, regexMatchPart fname = some j → j < k :=
  fun k recs hk fname lines hmem j hj =>
    process_written_indices_fresh h2 k recs hk fname lines hmem j hj

theorem part_indices_monotone_across_runs_witness : (0 : Nat) < 1 :=
  part_indices_monotone_across_runs (fun _ => []) (fun _ => []) "in" "in"
    ["a.pdf"] ["a.pdf"] [] ⟨[("part_00000.jsonl.gz", [])], [(0, [])], 1⟩
    ⟨[("part_00000.jsonl.gz", []), ("part_00001.jsonl.gz", [])], [(1, [])], 1⟩
    (by decide) (by decide) 1 [] (by decide) "part_00000.jsonl.gz" [] (by decide) 0 (by decide)

/-- C7: with the spec-modelled batch dispatch (`process_batch` drops failed
items, keeps the successes), a chunk with one failing item and K succeeding
items yields exactly K records, the part written for that chunk carries
exactly those records, and the run still writes one part per chunk (the
failure aborts neither the chunk nor the run). -/
theorem batch_dispatch_partial_failure
    (transform : String → Except Unit Json) (input_dir : String) (listing : List String)
    (d : Dir) (processed : List Json) (r : RunResult) (chunk : List String) (K : Nat)
    (hc : collect_processed_pdfs d = .ok processed)
    (hchunk : chunk ∈ chunkList (pendingPdfs processed (discoveredPdfs input_dir listing)) CHUNK_SIZE)
    (hK : chunk.countP (fun p => (transform p).toOption.isSome) = K)
    (_hfail : chunk.countP (fun p => (transform p).toOption.isNone) = 1)
    (hr : process (process_batch transform) input_dir listing d = .ok r) :
    (process_batch transform chunk).length = K ∧
    (∃ k, (k, process_batch transform chunk) ∈ r.written) ∧
    r.written.length
      = (chunkList (pendingPdfs processed (discoveredPdfs input_dir listing)) CHUNK_SIZE).length := by
  have hne : pendingPdfs processed (discoveredPdfs input_dir listing) ≠ [] := by
    intro hnil
    rw [hnil, chunkList_nil] at hchunk
    cases hchunk
  rw [process_run_eq hc hne] at hr
  cases hr
  refine ⟨?_, ?_, ?_⟩
  · rw [← hK]
    exact length_filterMap_eq_countP (fun p => (transform p).toOption) chunk
  · exact runChunks_written_mem (process_batch transform) (get_next_part_index d) _ 0 d chunk hchunk
  · exact runChunks_written_length (process_batch transform) (get_next_part_index d) _ 0 d

theorem batch_dispatch_partial_failure_witness :
    (process_batch (fun p => if p = "in/b.pdf" then .error () else .ok (Json.str p))
       ["in/a.pdf", "in/b.pdf"]).length = 1 ∧
    (∃ k, (k, process_batch (fun p => if p = "in/b.pdf" then .error () else .ok (Json.str p))
       ["in/a.pdf", "in/b.pdf"]) ∈
        (RunResult.mk [("part_00000.jsonl.gz", [some (Json.str "in/a.pdf")])]
          [(0, [Json.str "in/a.pdf"])] 1).written) ∧
    (RunResult.mk [("part_00000.jsonl.gz", [some (Json.str "in/a.pdf")])]
        [(0, [Json.str "in/a.pdf"])] 1).written.length
      = (chunkList (pendingPdfs []
          (discoveredPdfs "in" ["a.pdf", "b.pdf"])) CHUNK_SIZE).length :=
  batch_dispatch_partial_failure
    (fun p => if p = "in/b.pdf" then .error () else .ok (Json.str p)) "in"
    ["a.pdf", "b.pdf"] [] [] 
    (RunResult.mk [("part_00000.jsonl.gz", [some (Json.str "in/a.pdf")])]
      [(0, [Json.str "in/a.pdf"])] 1)
    ["in/a.pdf", "in/b.pdf"] 1
    (by decide) (by decide) (by decide) (by decide) (by decide)

theorem discovery_characterization_witness :
    "in/a.pdf" ∈ pendingPdfs [] (discoveredPdfs "in" ["a.pdf"]) ↔
      ("in/a.pdf" ∈ discoveredPdfs "in" ["a.pdf"] ∧ Json.str "in/a.pdf" ∉ ([] : List Json)) :=
  (discovery_characterization "in" ["a.pdf"] []).2.2.1 "in/a.pdf"
